import Mathlib

/-!
Verification of the `inlined` tool (Go, `inlined.go`): a shallow embedding of
its `.debug_ranges` decoder, DWARF entry scan, name resolution and statistic
aggregation, together with theorems settling the specification claims.

Conventions of the embedding:
* Go `uint64` values are `Nat` with wrap-around made explicit via `u64`
  (reduction modulo `2^64`) exactly where the Go code performs 64-bit
  arithmetic.
* Go maps are modelled either as association lists (`List (κ × α)`, updated
  in place at the first matching key, appended otherwise — faithful to Go
  map read/write semantics up to iteration order) or, for the write-once
  name/specification tables, as functions `Nat → Option _`.
* Fallible Go functions returning `(T, error)` become `Except String T`.
* The unbounded recursion of `nameForSubprogram` is embedded with an explicit
  recursion-depth budget (`fuel`): a `none` result at every budget models
  divergence of the Go code.
-/

/-- Wrap-around of Go `uint64` arithmetic: reduction modulo `2 ^ 64`. -/
def u64 (n : Nat) : Nat := n % 18446744073709551616

/-- The modulus of Go `uint64` arithmetic. -/
def U64 : Nat := 18446744073709551616

/-- Association-list model of a Go map write `m[k] = f (current value)`,
creating the entry from `x` when the key is absent (Go zero value). The
first matching entry is updated in place; a fresh key is appended. -/
def mapUpd [DecidableEq κ] (m : List (κ × α)) (k : κ) (f : α → α) (x : α) :
    List (κ × α) :=
  match m with
  | [] => [(k, f x)]
  | (k', v) :: rest =>
    if k' = k then (k', f v) :: rest else (k', v) :: mapUpd rest k f x

/-- Association-list model of a Go map read `v, ok := m[k]`. -/
def alookup [DecidableEq κ] (m : List (κ × α)) (k : κ) : Option α :=
  match m with
  | [] => none
  | (k', v) :: rest => if k' = k then some v else alookup rest k

/-- A well-formed association-list map carries each key at most once. -/
abbrev nodupKeys (m : List (κ × α)) : Prop := (m.map Prod.fst).Nodup

/-- Byte order of the container, as selected from the ELF header
(`binary.LittleEndian` / `binary.BigEndian`). -/
inductive ByteOrder where
  | le : ByteOrder
  | be : ByteOrder
deriving DecidableEq

/-- Address width selected from the ELF class: 32- or 64-bit addresses. -/
inductive AddrSize where
  | a32 : AddrSize
  | a64 : AddrSize
deriving DecidableEq

/-- Bytes per address field (`bytesPerAddress` in `parseDebugRangesFromELF`). -/
def fieldW : AddrSize → Nat
  | .a32 => 4
  | .a64 => 8

/-- Length of one `.debug_ranges` record: two address fields. -/
def recordBytes : AddrSize → Nat
  | .a32 => 8
  | .a64 => 16

/-- The largest representable address for the width (`math.MaxUint32` /
`math.MaxUint64`), marking a base address selection entry. -/
def maxAddr : AddrSize → Nat
  | .a32 => 4294967295
  | .a64 => 18446744073709551615

/-- Value of a byte sequence under a byte order (`byteOrder.Uint32/Uint64`):
little endian takes the first byte as least significant, big endian as most
significant. -/
def wordVal : ByteOrder → List Nat → Nat
  | .le, bs => bs.foldr (fun b acc => b + 256 * acc) 0
  | .be, bs => bs.foldl (fun acc b => 256 * acc + b) 0

/-- Little-endian byte encoding of a value in `w` bytes. -/
def leBytes : Nat → Nat → List Nat
  | 0, _ => []
  | w + 1, v => v % 256 :: leBytes w (v / 256)

/-- Byte encoding of one address field of value `v` under a byte order. -/
def encWord (ord : ByteOrder) (w v : Nat) : List Nat :=
  match ord with
  | .le => leBytes w v
  | .be => (leBytes w v).reverse

/-- Byte encoding of one `.debug_ranges` record `(begin, end)`. -/
def encRecord (cls : AddrSize) (ord : ByteOrder) (p : Nat × Nat) : List Nat :=
  encWord ord (fieldW cls) p.1 ++ encWord ord (fieldW cls) p.2

/-- Byte encoding of a sequence of `.debug_ranges` records. -/
def encStream (cls : AddrSize) (ord : ByteOrder) : List (Nat × Nat) → List Nat
  | [] => []
  | p :: rest => encRecord cls ord p ++ encStream cls ord rest

/-- The range-size table: section byte offset of a range list to the total
span accumulated for that list (Go `rangeSizeMap = map[int64]uint64`). -/
abbrev RMap := List (Int × Nat)

/-- The read loop of `parseDebugRangesFromELF`, embedded with an explicit
iteration budget (`fuel`); each iteration consumes one full record from the
section bytes, so any `fuel` exceeding the byte count is never exhausted.
Mirrors the Go loop: a zero-byte read at end of section returns the table,
a short read is a fatal error, a base address selection entry is skipped,
an end-of-list entry moves the current list start to the cursor after it,
and a range entry adds `end - begin` (in `uint64` arithmetic) to the table
at the current list start. The Go guard `bytes < 0` on a `uint64` is kept
verbatim; it can never be taken. -/
def parseLoopF (cls : AddrSize) (ord : ByteOrder) :
    Nat → List Nat → Int → Int → RMap → Except String RMap
  | 0, _, _, _, _ => .error "out of fuel"
  | fuel + 1, bytes, currentOffset, nextOffset, acc =>
    if bytes = [] then .ok acc
    else if bytes.length < recordBytes cls then
      .error ("read strange number of bytes: " ++ toString bytes.length)
    else
      let buf := bytes.take (recordBytes cls)
      let rest := bytes.drop (recordBytes cls)
      let nextOffset' := nextOffset + (recordBytes cls : Int)
      let bval := wordVal ord (buf.take (fieldW cls))
      let eval := wordVal ord ((buf.drop (fieldW cls)).take (fieldW cls))
      if bval = maxAddr cls then
        parseLoopF cls ord fuel rest currentOffset nextOffset' acc
      else if bval = 0 ∧ eval = 0 then
        parseLoopF cls ord fuel rest nextOffset' nextOffset' acc
      else
        let bytesV := u64 (eval + U64 - bval)
        if bytesV < 0 then .error "got invalid range"
        else
          parseLoopF cls ord fuel rest currentOffset nextOffset'
            (mapUpd acc currentOffset (fun v => u64 (v + bytesV)) 0)

/-- Byte order field of the ELF header (`elf.ELFDATA2LSB` / `ELFDATA2MSB` /
anything else). -/
inductive ELFData where
  | lsb : ELFData
  | msb : ELFData
  | unknownData : ELFData
deriving DecidableEq

/-- Class field of the ELF header (`elf.ELFCLASS32` / `ELFCLASS64` /
anything else). -/
inductive ELFClass where
  | class32 : ELFClass
  | class64 : ELFClass
  | unknownClass : ELFClass
deriving DecidableEq

/-- The projection of `*elf.File` that `parseDebugRangesFromELF` consumes:
byte order, class, and the raw bytes of the `.debug_ranges` section when
that section is present. -/
structure ELFFile where
  data : ELFData
  cls : ELFClass
  debugRanges : Option (List Nat)
deriving DecidableEq

/-- Embedding of `parseDebugRangesFromELF`: a missing `.debug_ranges` section
returns the empty table with no error (the Go code returns a nil map, whose
reads all miss); an unknown byte order or class is an error; otherwise the
record loop runs over the section bytes. -/
def parseDebugRangesFromELF (f : ELFFile) : Except String RMap :=
  match f.debugRanges with
  | none => .ok []
  | some sb =>
    match f.data, f.cls with
    | .unknownData, _ => .error "has an unknown byte order"
    | .lsb, .unknownClass => .error "has unknown class value"
    | .msb, .unknownClass => .error "has unknown class value"
    | .lsb, .class32 => parseLoopF .a32 .le (sb.length + 1) sb 0 0 []
    | .lsb, .class64 => parseLoopF .a64 .le (sb.length + 1) sb 0 0 []
    | .msb, .class32 => parseLoopF .a32 .be (sb.length + 1) sb 0 0 []
    | .msb, .class64 => parseLoopF .a64 .be (sb.length + 1) sb 0 0 []

/-- DWARF entry tags distinguished by the scan loop of `analyze`
(`dwarf.TagSubprogram`, `dwarf.TagInlinedSubroutine`, anything else). -/
inductive Tag where
  | subprogram : Tag
  | inlinedSubroutine : Tag
  | otherTag : Tag
deriving DecidableEq

/-- The projection of `*dwarf.Entry` consumed by `analyze`: the entry's
offset, its tag, and the attribute values the code extracts with dynamic
type assertions. A field is `some v` exactly when the attribute is present
with the dynamic type the Go type assertion demands (`string`, `int64` or
`dwarf.Offset`), and `none` when `entry.Val(...)` yields `nil` or a value
of another dynamic type. -/
structure Entry where
  offset : Nat
  tag : Tag
  linkageName : Option String
  specification : Option Nat
  name : Option String
  abstractOrigin : Option Nat
  highpc : Option Int
  ranges : Option Int
deriving DecidableEq

/-- Embedding of `nameForSubprogram` with an explicit recursion budget. The
Go function first follows a specification reference if one was recorded,
then returns a recorded name, and otherwise fails; it recurses with no
cycle guard, so a `none` result at every budget models divergence. -/
def nameForSubprogramF (names : Nat → Option String)
    (specs : Nat → Option Nat) : Nat → Nat → Option (Except String String)
  | 0, _ => none
  | fuel + 1, offset =>
    match specs offset with
    | some specOffset => nameForSubprogramF names specs fuel specOffset
    | none =>
      match names offset with
      | some name => some (.ok name)
      | none =>
        some (.error ("could not find name or spec for subprogram " ++
          toString offset))

/-- Embedding of `bytesForInlinedSubroutine`: a present `int64`-typed
`DW_AT_high_pc` is the byte count unless negative (error); otherwise a
present `int64`-typed `DW_AT_ranges` offset is looked up in the range
table, a miss being an error; an entry with neither is an error. -/
def bytesForInlinedSubroutine (rangeSizes : RMap) (e : Entry) :
    Except String Nat :=
  match e.highpc with
  | some b => if b < 0 then .error ("has negative size " ++ toString b)
              else .ok b.toNat
  | none =>
    match e.ranges with
    | some rangeOffset =>
      match alookup rangeSizes rangeOffset with
      | some b => .ok b
      | none => .error "couldn't find range entry"
    | none => .error "has no valid high pc or range"

/-- Per-function statistic: number of inlined occurrences and total bytes
(both Go `uint64`). -/
structure stats where
  Count : Nat
  Bytes : Nat
deriving DecidableEq

/-- One inline call site's contribution to a statistic: `s.Count++` and
`s.Bytes += bytes` in `uint64` arithmetic. -/
def statAcc (bytes : Nat) (s : stats) : stats :=
  ⟨u64 (s.Count + 1), u64 (s.Bytes + bytes)⟩

/-- Merge of an origin statistic into a per-name statistic:
`ns.Count += s.Count; ns.Bytes += s.Bytes` in `uint64` arithmetic. -/
def statMerge (ns s : stats) : stats :=
  ⟨u64 (ns.Count + s.Count), u64 (ns.Bytes + s.Bytes)⟩

/-- Pointwise update of a write-once function map (`names[k] = v` /
`specs[k] = v` in the scan loop). -/
def fupd (m : Nat → Option α) (k : Nat) (v : α) : Nat → Option α :=
  fun o => if o = k then some v else m o

/-- State of the scan pass of `analyze`: the `names` and `specs` tables and
the per-abstract-origin statistics map. -/
structure ScanState where
  names : Nat → Option String
  specs : Nat → Option Nat
  abstractOriginStats : List (Nat × stats)

/-- The empty state entering the scan loop. -/
def initScanState : ScanState := ⟨fun _ => none, fun _ => none, []⟩

/-- One iteration of the scan loop of `analyze`. A subprogram entry records,
first match wins: its linkage name as a resolved name, else its
specification reference, else its plain name as a resolved name, else
nothing. An inlined-subroutine entry missing its abstract origin is skipped
(reported), one whose byte extent fails to resolve is skipped (reported),
and otherwise its statistic is accumulated under its origin. Other tags are
ignored. -/
def scanStep (rangeSizes : RMap) (σ : ScanState) (e : Entry) : ScanState :=
  match e.tag with
  | .subprogram =>
    match e.linkageName with
    | some linkageName => { σ with names := fupd σ.names e.offset linkageName }
    | none =>
      match e.specification with
      | some specOffset => { σ with specs := fupd σ.specs e.offset specOffset }
      | none =>
        match e.name with
        | some name => { σ with names := fupd σ.names e.offset name }
        | none => σ
  | .inlinedSubroutine =>
    match e.abstractOrigin with
    | none => σ
    | some abstractOrigin =>
      match bytesForInlinedSubroutine rangeSizes e with
      | .error _ => σ
      | .ok bytes =>
        { σ with abstractOriginStats :=
            mapUpd σ.abstractOriginStats abstractOrigin (statAcc bytes) ⟨0, 0⟩ }
  | .otherTag => σ

/-- The scan pass of `analyze`: one linear walk over the entry stream. -/
def scanEntries (rangeSizes : RMap) (entries : List Entry) : ScanState :=
  entries.foldl (scanStep rangeSizes) initScanState

/-- The name a per-origin statistic is filed under by the resolution pass:
the resolved name on success, and the empty string (the Go zero value that
`nameForSubprogram` returns alongside its error) on a resolution error.
`none` models divergence of the resolver at the given budget. -/
def resolvedName (names : Nat → Option String) (specs : Nat → Option Nat)
    (fuel : Nat) (o : Nat) : Option String :=
  match nameForSubprogramF names specs fuel o with
  | none => none
  | some (.ok n) => some n
  | some (.error _) => some ""

/-- The resolution-and-merge pass of `analyze`: each per-origin statistic is
merged into the per-name table under its resolved name (the empty string on
a resolution error). A `none` result models the Go code diverging inside
`nameForSubprogram` at the given budget. -/
def mergePass (resolve : Nat → Option String) :
    List (Nat × stats) → List (String × stats) →
    Option (List (String × stats))
  | [], acc => some acc
  | (o, s) :: rest, acc =>
    match resolve o with
    | none => none
    | some name => mergePass resolve rest (mapUpd acc name (statMerge · s) ⟨0, 0⟩)

/-- The statistics, among the per-origin statistics `om`, of exactly the
origins whose resolved name is `n`. -/
def valuesFor (resolve : Nat → Option String) (om : List (Nat × stats))
    (n : String) : List stats :=
  om.filterMap (fun p => if resolve p.1 = some n then some p.2 else none)

/-- The aggregation core of `analyze` on an already-decoded entry stream:
scan pass, then resolution-and-merge pass, yielding the per-name statistic
table. -/
def analyzeEntries (fuel : Nat) (rangeSizes : RMap) (entries : List Entry) :
    Option (List (String × stats)) :=
  mergePass
    (resolvedName (scanEntries rangeSizes entries).names
      (scanEntries rangeSizes entries).specs fuel)
    (scanEntries rangeSizes entries).abstractOriginStats []

/-- `analyze` on an ELF file with an already-decoded entry stream: range
table decoding first, a decode error aborting the analysis, then the
aggregation core. -/
def analyzeELF (fuel : Nat) (f : ELFFile) (entries : List Entry) :
    Except String (Option (List (String × stats))) :=
  match parseDebugRangesFromELF f with
  | .error e => .error e
  | .ok rangeSizes => .ok (analyzeEntries fuel rangeSizes entries)

/-- Specification table with a two-cycle: offsets `0` and `1` reference each
other (`specs[0] = 1`, `specs[1] = 0`). -/
def cycSpecs : Nat → Option Nat :=
  fun o => if o = 0 then some 1 else if o = 1 then some 0 else none

/-- Total count over an origin-statistics map (used to bound `uint64`
wrap-around of the counters). -/
def sumCounts (m : List (Nat × stats)) : Nat :=
  (m.map (fun p => p.2.Count)).sum

/-- On the two-cycle specification table, the resolver reaches no result at
any recursion depth, whichever of the two cycling offsets it starts from. -/
theorem cycle_resolution_aux :
    ∀ (fuel o : Nat), o = 0 ∨ o = 1 →
      nameForSubprogramF (fun _ => none) cycSpecs fuel o = none := by
  intro fuel
  induction fuel with
  | zero => intro o _; rfl
  | succ n ih =>
    intro o ho
    rcases ho with h | h <;> subst h <;>
      simp [nameForSubprogramF, cycSpecs] <;>
      [exact ih 1 (Or.inr rfl); exact ih 0 (Or.inl rfl)]

/-- C2: for a declaration key whose specification-reference chain contains a
cycle (`specs[0] = 1`, `specs[1] = 0`, no names recorded), `nameForSubprogram`
never terminates: at every recursion budget the embedded resolver is still
running (`none`), so it neither returns a name nor the resolution error the
specification requires. The code recurses unboundedly instead of failing. -/
theorem nameForSubprogram_cycle_diverges :
    ∀ fuel : Nat, nameForSubprogramF (fun _ => none) cycSpecs fuel 0 = none :=
  fun fuel => cycle_resolution_aux fuel 0 (Or.inl rfl)

/-- C3: a normal range record with `end < begin` (here `begin = 50`,
`end = 10`, 32-bit class, little endian) is not rejected: the `uint64`
subtraction wraps around and `parseDebugRangesFromELF` returns success with
the huge wrapped span `2^64 - 40` in the table, never taking its
`got invalid range` branch (a `uint64` is never negative). -/
theorem parseDebugRanges_end_lt_begin_wraps :
    parseDebugRangesFromELF
        ⟨.lsb, .class32, some (encStream .a32 .le [(50, 10)])⟩ =
      .ok [(0, 18446744073709551576)] := by
  rfl

/-- C1 counterexample: decoding the stream of records
`(0,0), (10,50), (0,0)` at address width 4 (little endian shown; the table
is keyed the same for either order) yields a table with no entry at offset
`0` — the 40-byte span is keyed at offset `8`, refuting the claimed table
`(0 : 40)`. -/
theorem parse_scenario_not_keyed_at_zero :
    (parseDebugRangesFromELF
        ⟨.lsb, .class32, some (encStream .a32 .le [(0, 0), (10, 50), (0, 0)])⟩).map
      (fun m => (alookup m 0, alookup m 8)) = .ok (none, some 40) := by
  rfl

/-- C1 (amended): decoding the byte stream of the three 2-field records
`(0,0), (10,50), (0,0)` at address width 4, under either fixed byte order,
returns the table with the single entry `8 : 40`: the first sentinel starts
a new list at offset 8, the `(10,50)` entry contributes 40 bytes to that
list's key, and the final sentinel closes it. -/
theorem parse_scenario_table :
    parseDebugRangesFromELF
        ⟨.lsb, .class32, some (encStream .a32 .le [(0, 0), (10, 50), (0, 0)])⟩ =
      .ok [(8, 40)] ∧
    parseDebugRangesFromELF
        ⟨.msb, .class32, some (encStream .a32 .be [(0, 0), (10, 50), (0, 0)])⟩ =
      .ok [(8, 40)] :=
  ⟨rfl, rfl⟩

/-- C5: for every subprogram entry the scan records exactly one of three
states, first match wins: a present linkage name is recorded as the resolved
name (irrespective of any specification reference or plain name, so a
linkage name always wins); else a present specification reference is
recorded for chained resolution; else a present plain name is recorded as
the resolved name. -/
theorem scan_subprogram_priority :
    ∀ (rangeSizes : RMap) (σ : ScanState) (e : Entry), e.tag = .subprogram →
      (∀ ln, e.linkageName = some ln →
        scanStep rangeSizes σ e = { σ with names := fupd σ.names e.offset ln }) ∧
      (e.linkageName = none → ∀ so, e.specification = some so →
        scanStep rangeSizes σ e = { σ with specs := fupd σ.specs e.offset so }) ∧
      (e.linkageName = none → e.specification = none → ∀ nm, e.name = some nm →
        scanStep rangeSizes σ e = { σ with names := fupd σ.names e.offset nm }) := by
  intro rangeSizes σ e htag
  refine ⟨?_, ?_, ?_⟩
  · intro ln hln; simp [scanStep, htag, hln]
  · intro hln so hso; simp [scanStep, htag, hln, hso]
  · intro hln hso nm hnm; simp [scanStep, htag, hln, hso, hnm]

/-- Witness for C5: a subprogram entry carrying a linkage name, a
specification reference and a plain name at once records the linkage name. -/
theorem scan_subprogram_priority_witness :
    scanStep [] initScanState
        ⟨7, .subprogram, some "mangled", some 3, some "plain", none, none, none⟩ =
      { initScanState with names := fupd initScanState.names 7 "mangled" } :=
  (scan_subprogram_priority [] initScanState
    ⟨7, .subprogram, some "mangled", some 3, some "plain", none, none, none⟩
    rfl).1 "mangled" rfl

/-- C9: byte-extent determination for an inline call site. A present
`int64` byte count that is non-negative is used; a negative one is a
per-entry error, and the scan skips the entry while processing the
remaining entries unchanged; an entry with neither a byte count nor a
ranges reference is a per-entry error and is likewise skipped with
processing continuing. -/
theorem bytes_extent_cases :
    ∀ (rangeSizes : RMap) (e : Entry),
      (∀ b : Int, e.highpc = some b → 0 ≤ b →
        bytesForInlinedSubroutine rangeSizes e = .ok b.toNat) ∧
      (∀ b : Int, e.highpc = some b → b < 0 →
        bytesForInlinedSubroutine rangeSizes e =
          .error ("has negative size " ++ toString b) ∧
        (e.tag = .inlinedSubroutine → ∀ (σ : ScanState) (rest : List Entry),
          (e :: rest).foldl (scanStep rangeSizes) σ =
            rest.foldl (scanStep rangeSizes) σ)) ∧
      (e.highpc = none → e.ranges = none →
        bytesForInlinedSubroutine rangeSizes e =
          .error "has no valid high pc or range" ∧
        (e.tag = .inlinedSubroutine → ∀ (σ : ScanState) (rest : List Entry),
          (e :: rest).foldl (scanStep rangeSizes) σ =
            rest.foldl (scanStep rangeSizes) σ)) ∧
      (e.highpc = none → ∀ ro : Int, e.ranges = some ro →
        alookup rangeSizes ro = none →
        bytesForInlinedSubroutine rangeSizes e =
          .error "couldn't find range entry" ∧
        (e.tag = .inlinedSubroutine → ∀ (σ : ScanState) (rest : List Entry),
          (e :: rest).foldl (scanStep rangeSizes) σ =
            rest.foldl (scanStep rangeSizes) σ)) := by
  intro rangeSizes e
  refine ⟨?_, ?_, ?_, ?_⟩
  · intro b hb hpos
    simp [bytesForInlinedSubroutine, hb, not_lt.mpr hpos]
  · intro b hb hneg
    have herr : bytesForInlinedSubroutine rangeSizes e =
        .error ("has negative size " ++ toString b) := by
      simp [bytesForInlinedSubroutine, hb, hneg]
    refine ⟨herr, ?_⟩
    intro htag σ rest
    have hstep : scanStep rangeSizes σ e = σ := by
      cases ho : e.abstractOrigin <;> simp [scanStep, htag, ho, herr]
    simp [List.foldl, hstep]
  · intro hhp hr
    have herr : bytesForInlinedSubroutine rangeSizes e =
        .error "has no valid high pc or range" := by
      simp [bytesForInlinedSubroutine, hhp, hr]
    refine ⟨herr, ?_⟩
    intro htag σ rest
    have hstep : scanStep rangeSizes σ e = σ := by
      cases ho : e.abstractOrigin <;> simp [scanStep, htag, ho, herr]
    simp [List.foldl, hstep]
  · intro hhp ro hro hmiss
    have herr : bytesForInlinedSubroutine rangeSizes e =
        .error "couldn't find range entry" := by
      simp [bytesForInlinedSubroutine, hhp, hro, hmiss]
    refine ⟨herr, ?_⟩
    intro htag σ rest
    have hstep : scanStep rangeSizes σ e = σ := by
      cases ho : e.abstractOrigin <;> simp [scanStep, htag, ho, herr]
    simp [List.foldl, hstep]

/-- Witness for C9: an inline call site encoding the negative byte count
`-3` yields the per-entry error and is skipped, leaving the scan state of
the remaining (empty) stream untouched. -/
theorem bytes_extent_cases_witness :
    bytesForInlinedSubroutine []
        ⟨9, .inlinedSubroutine, none, none, none, some 5, some (-3), none⟩ =
      .error "has negative size -3" ∧
    [(⟨9, .inlinedSubroutine, none, none, none, some 5, some (-3), none⟩ : Entry)].foldl
        (scanStep []) initScanState =
      List.foldl (scanStep []) initScanState [] :=
  And.imp (fun h => h) (fun h => h rfl initScanState [])
    ((bytes_extent_cases []
      ⟨9, .inlinedSubroutine, none, none, none, some 5, some (-3), none⟩).2.1
      (-3) rfl (by decide))

/-- C8: when the `.debug_ranges` section is absent, `parseDebugRangesFromELF`
succeeds with the empty table; the analysis proceeds (no abort from range
decoding), and every inline call site whose byte extent requires a
range-table lookup hits a per-entry soft error, is skipped by the scan, and
the remaining entries are still processed. -/
theorem missing_ranges_section_soft :
    ∀ (f : ELFFile) (entries : List Entry) (fuel : Nat), f.debugRanges = none →
      parseDebugRangesFromELF f = .ok [] ∧
      analyzeELF fuel f entries = .ok (analyzeEntries fuel [] entries) ∧
      (∀ e : Entry, e.highpc = none → ∀ ro : Int, e.ranges = some ro →
        bytesForInlinedSubroutine [] e = .error "couldn't find range entry" ∧
        (e.tag = .inlinedSubroutine → ∀ (σ : ScanState) (rest : List Entry),
          (e :: rest).foldl (scanStep []) σ = rest.foldl (scanStep []) σ)) := by
  intro f entries fuel hf
  have hp : parseDebugRangesFromELF f = .ok [] := by
    simp [parseDebugRangesFromELF, hf]
  refine ⟨hp, ?_, ?_⟩
  · simp [analyzeELF, hp]
  · intro e hhp ro hro
    have herr : bytesForInlinedSubroutine [] e =
        .error "couldn't find range entry" := by
      simp [bytesForInlinedSubroutine, hhp, hro, alookup]
    refine ⟨herr, ?_⟩
    intro htag σ rest
    have hstep : scanStep [] σ e = σ := by
      cases ho : e.abstractOrigin <;> simp [scanStep, htag, ho, herr]
    simp [List.foldl, hstep]

/-- Witness for C8: a file without `.debug_ranges` decodes to the empty
table, its analysis proceeds, and a concrete ranges-referencing call site
yields the per-entry lookup error. -/
theorem missing_ranges_section_soft_witness :
    parseDebugRangesFromELF ⟨.lsb, .class32, none⟩ = .ok [] ∧
    analyzeELF 1 ⟨.lsb, .class32, none⟩
        [⟨3, .inlinedSubroutine, none, none, none, some 5, none, some 0⟩] =
      .ok (analyzeEntries 1 []
        [⟨3, .inlinedSubroutine, none, none, none, some 5, none, some 0⟩]) ∧
    bytesForInlinedSubroutine []
        ⟨3, .inlinedSubroutine, none, none, none, some 5, none, some 0⟩ =
      .error "couldn't find range entry" := by
  obtain ⟨h1, h2, h3⟩ := missing_ranges_section_soft ⟨.lsb, .class32, none⟩
    [⟨3, .inlinedSubroutine, none, none, none, some 5, none, some 0⟩] 1 rfl
  exact ⟨h1, h2,
    (h3 ⟨3, .inlinedSubroutine, none, none, none, some 5, none, some 0⟩ rfl 0 rfl).1⟩

/-- A well-formed synthetic `.debug_ranges` record for an address width:
both fields representable, and a non-base record is a normal range entry
(`begin ≤ end`, not the end-of-list sentinel). -/
abbrev validRec (cls : AddrSize) (p : Nat × Nat) : Prop :=
  p.1 < 256 ^ fieldW cls ∧ p.2 < 256 ^ fieldW cls ∧
    (p.1 ≠ maxAddr cls → p.1 ≤ p.2 ∧ ¬(p.1 = 0 ∧ p.2 = 0))

/-- The normal range entries of a synthetic record list: everything that is
not a base address selection record. -/
def normalRecords (cls : AddrSize) (rs : List (Nat × Nat)) : List (Nat × Nat) :=
  rs.filter (fun p => decide (p.1 ≠ maxAddr cls))

/-- Total span of a synthetic record list: the sum of `end - begin` over its
normal entries. -/
def spanSum (cls : AddrSize) (rs : List (Nat × Nat)) : Nat :=
  ((normalRecords cls rs).map (fun p => p.2 - p.1)).sum

/-- The ELF file with the given byte order, address width and
`.debug_ranges` section contents. -/
def fileOf (ord : ByteOrder) (cls : AddrSize) (sb : List Nat) : ELFFile :=
  ⟨match ord with | .le => .lsb | .be => .msb,
   match cls with | .a32 => .class32 | .a64 => .class64,
   some sb⟩

theorem leBytes_length (w v : Nat) : (leBytes w v).length = w := by
  induction w generalizing v with
  | zero => rfl
  | succ n ih => simp [leBytes, ih]

theorem encWord_length (ord : ByteOrder) (w v : Nat) :
    (encWord ord w v).length = w := by
  cases ord <;> simp [encWord, leBytes_length]

theorem encRecord_length (cls : AddrSize) (ord : ByteOrder) (p : Nat × Nat) :
    (encRecord cls ord p).length = recordBytes cls := by
  cases cls <;> simp [encRecord, encWord_length, recordBytes, fieldW]

theorem wordVal_le_leBytes (w v : Nat) :
    wordVal .le (leBytes w v) = v % 256 ^ w := by
  induction w generalizing v with
  | zero => simp [leBytes, wordVal, Nat.mod_one]
  | succ n ih =>
    have h : (256 : Nat) ^ (n + 1) = 256 * 256 ^ n := by ring
    simp only [leBytes, wordVal, List.foldr_cons, h, Nat.mod_mul]
    have := ih (v / 256)
    simp only [wordVal] at this
    omega

theorem wordVal_be_reverse (l : List Nat) :
    wordVal .be l.reverse = wordVal .le l := by
  simp only [wordVal, List.foldl_reverse]
  congr 1
  funext x y
  ring

theorem wordVal_encWord (ord : ByteOrder) (w v : Nat) (h : v < 256 ^ w) :
    wordVal ord (encWord ord w v) = v := by
  cases ord
  · simpa [encWord, wordVal_le_leBytes] using Nat.mod_eq_of_lt h
  · simpa [encWord, wordVal_be_reverse, wordVal_le_leBytes]
      using Nat.mod_eq_of_lt h

theorem recordBytes_pos (cls : AddrSize) : 0 < recordBytes cls := by
  cases cls <;> simp [recordBytes]

theorem zero_ne_maxAddr (cls : AddrSize) : (0 : Nat) ≠ maxAddr cls := by
  cases cls <;> simp [maxAddr]

theorem pow_fieldW_le_U64 (cls : AddrSize) : 256 ^ fieldW cls ≤ U64 := by
  cases cls <;> norm_num [fieldW, U64]

theorem parseLoopF_nil (cls : AddrSize) (ord : ByteOrder) (fuel : Nat)
    (co no : Int) (acc : RMap) :
    parseLoopF cls ord (fuel + 1) [] co no acc = .ok acc := by
  simp [parseLoopF]

theorem spanSum_cons_base (cls : AddrSize) (b e : Nat) (rs : List (Nat × Nat))
    (hmax : b = maxAddr cls) :
    spanSum cls ((b, e) :: rs) = spanSum cls rs := by
  simp [spanSum, normalRecords, hmax]

theorem spanSum_cons_normal (cls : AddrSize) (b e : Nat)
    (rs : List (Nat × Nat)) (hmax : b ≠ maxAddr cls) :
    spanSum cls ((b, e) :: rs) = (e - b) + spanSum cls rs := by
  simp [spanSum, normalRecords, hmax]

theorem parseLoopF_step (cls : AddrSize) (ord : ByteOrder) (fuel : Nat)
    (b e : Nat) (rest : List Nat) (co no : Int) (acc : RMap)
    (hb : b < 256 ^ fieldW cls) (he : e < 256 ^ fieldW cls) :
    parseLoopF cls ord (fuel + 1) (encRecord cls ord (b, e) ++ rest) co no acc =
      if b = maxAddr cls then
        parseLoopF cls ord fuel rest co (no + (recordBytes cls : Int)) acc
      else if b = 0 ∧ e = 0 then
        parseLoopF cls ord fuel rest (no + (recordBytes cls : Int))
          (no + (recordBytes cls : Int)) acc
      else
        parseLoopF cls ord fuel rest co (no + (recordBytes cls : Int))
          (mapUpd acc co (fun v => u64 (v + u64 (e + U64 - b))) 0) := by
  have hrb : 0 < recordBytes cls := recordBytes_pos cls
  have hlenr : (encRecord cls ord (b, e)).length = recordBytes cls :=
    encRecord_length cls ord (b, e)
  have hlen : (encRecord cls ord (b, e) ++ rest).length =
      recordBytes cls + rest.length := by simp [hlenr]
  have hne : ¬ (encRecord cls ord (b, e) ++ rest = []) := by
    intro h
    rw [h] at hlen
    simp at hlen
    omega
  have hnlt : ¬ (encRecord cls ord (b, e) ++ rest).length < recordBytes cls := by
    omega
  have htake : (encRecord cls ord (b, e) ++ rest).take (recordBytes cls) =
      encRecord cls ord (b, e) := List.take_left' hlenr
  have hdrop : (encRecord cls ord (b, e) ++ rest).drop (recordBytes cls) =
      rest := List.drop_left' hlenr
  have htakeb : (encRecord cls ord (b, e)).take (fieldW cls) =
      encWord ord (fieldW cls) b := List.take_left' (encWord_length ord _ b)
  have hdrope : (encRecord cls ord (b, e)).drop (fieldW cls) =
      encWord ord (fieldW cls) e := List.drop_left' (encWord_length ord _ b)
  have htakee : (encWord ord (fieldW cls) e).take (fieldW cls) =
      encWord ord (fieldW cls) e :=
    List.take_of_length_le (le_of_eq (encWord_length ord _ e))
  simp only [parseLoopF, hne, if_false, hnlt, htake, hdrop,
    htakeb, hdrope, htakee, wordVal_encWord ord _ b hb,
    wordVal_encWord ord _ e he, Nat.not_lt_zero, if_false]

theorem parse_ranges_aux1 (cls : AddrSize) (ord : ByteOrder) :
    ∀ (rs : List (Nat × Nat)), (∀ p ∈ rs, validRec cls p) →
      ∀ (fuel : Nat) (n : Int) (v : Nat),
        (encStream cls ord (rs ++ [(0, 0)])).length < fuel → v < U64 →
        parseLoopF cls ord fuel (encStream cls ord (rs ++ [(0, 0)])) 0 n
            [(0, v)] =
          .ok [(0, u64 (v + spanSum cls rs))] := by
  intro rs
  induction rs with
  | nil =>
    intro _ fuel n v hfuel hv
    have hz : (0 : Nat) < 256 ^ fieldW cls := by positivity
    have hrb : 0 < recordBytes cls := recordBytes_pos cls
    have hstream : encStream cls ord ([] ++ [(0, 0)]) =
        encRecord cls ord (0, 0) ++ encStream cls ord [] := rfl
    have hlen : (encStream cls ord ([] ++ [(0, 0)])).length = recordBytes cls := by
      rw [hstream]
      simp [encStream, encRecord_length]
    obtain ⟨f, rfl⟩ : ∃ f, fuel = f + 1 := ⟨fuel - 1, by omega⟩
    obtain ⟨f', rfl⟩ : ∃ f', f = f' + 1 := ⟨f - 1, by omega⟩
    rw [hstream]
    show parseLoopF cls ord (f' + 1 + 1) (encRecord cls ord (0, 0) ++ []) 0 n
        [(0, v)] = _
    rw [parseLoopF_step cls ord (f' + 1) 0 0 [] 0 n [(0, v)] hz hz,
      if_neg (zero_ne_maxAddr cls), if_pos ⟨rfl, rfl⟩, parseLoopF_nil]
    have : spanSum cls ([] : List (Nat × Nat)) = 0 := rfl
    rw [this]
    have : u64 (v + 0) = v := by
      simp [u64, U64] at *
      omega
    rw [this]
  | cons p rs ih =>
    intro hwf fuel n v hfuel hv
    obtain ⟨b, e⟩ := p
    obtain ⟨hb, he, hnorm⟩ := hwf (b, e) (List.mem_cons_self _ _)
    have hwf' : ∀ q ∈ rs, validRec cls q :=
      fun q hq => hwf q (List.mem_cons_of_mem _ hq)
    have hrb : 0 < recordBytes cls := recordBytes_pos cls
    have hstream : encStream cls ord (((b, e) :: rs) ++ [(0, 0)]) =
        encRecord cls ord (b, e) ++ encStream cls ord (rs ++ [(0, 0)]) := rfl
    have hlen : (encStream cls ord (((b, e) :: rs) ++ [(0, 0)])).length =
        recordBytes cls + (encStream cls ord (rs ++ [(0, 0)])).length := by
      rw [hstream]
      simp [encRecord_length]
    obtain ⟨f, rfl⟩ : ∃ f, fuel = f + 1 := ⟨fuel - 1, by omega⟩
    have hfuel' : (encStream cls ord (rs ++ [(0, 0)])).length < f := by omega
    rw [hstream, parseLoopF_step cls ord f b e _ 0 n [(0, v)] hb he]
    by_cases hmax : b = maxAddr cls
    · rw [if_pos hmax, ih hwf' f (n + (recordBytes cls : Int)) v hfuel' hv,
        spanSum_cons_base cls b e rs hmax]
    · obtain ⟨hle, hns⟩ := hnorm hmax
      rw [if_neg hmax, if_neg (by simpa using hns)]
      have hU : 256 ^ fieldW cls ≤ U64 := pow_fieldW_le_U64 cls
      have hwrap : u64 (e + U64 - b) = e - b := by
        simp only [u64, U64] at *
        omega
      have hupd : mapUpd [((0 : Int), v)] 0
          (fun w => u64 (w + u64 (e + U64 - b))) 0 =
          [((0 : Int), u64 (v + (e - b)))] := by
        simp [mapUpd, hwrap]
      rw [hupd]
      have hv' : u64 (v + (e - b)) < U64 := by
        simp only [u64, U64]
        omega
      rw [ih hwf' f (n + (recordBytes cls : Int)) (u64 (v + (e - b))) hfuel' hv',
        spanSum_cons_normal cls b e rs hmax]
      have harith : u64 (u64 (v + (e - b)) + spanSum cls rs) =
          u64 (v + ((e - b) + spanSum cls rs)) := by
        simp only [u64, U64]
        omega
      rw [harith]

theorem parse_ranges_aux0 (cls : AddrSize) (ord : ByteOrder) :
    ∀ (rs : List (Nat × Nat)), (∀ p ∈ rs, validRec cls p) →
      normalRecords cls rs ≠ [] →
      ∀ (fuel : Nat) (n : Int),
        (encStream cls ord (rs ++ [(0, 0)])).length < fuel →
        parseLoopF cls ord fuel (encStream cls ord (rs ++ [(0, 0)])) 0 n [] =
          .ok [(0, u64 (spanSum cls rs))] := by
  intro rs
  induction rs with
  | nil =>
    intro _ hN
    simp [normalRecords] at hN
  | cons p rs ih =>
    intro hwf hN fuel n hfuel
    obtain ⟨b, e⟩ := p
    obtain ⟨hb, he, hnorm⟩ := hwf (b, e) (List.mem_cons_self _ _)
    have hwf' : ∀ q ∈ rs, validRec cls q :=
      fun q hq => hwf q (List.mem_cons_of_mem _ hq)
    have hrb : 0 < recordBytes cls := recordBytes_pos cls
    have hstream : encStream cls ord (((b, e) :: rs) ++ [(0, 0)]) =
        encRecord cls ord (b, e) ++ encStream cls ord (rs ++ [(0, 0)]) := rfl
    have hlen : (encStream cls ord (((b, e) :: rs) ++ [(0, 0)])).length =
        recordBytes cls + (encStream cls ord (rs ++ [(0, 0)])).length := by
      rw [hstream]
      simp [encRecord_length]
    obtain ⟨f, rfl⟩ : ∃ f, fuel = f + 1 := ⟨fuel - 1, by omega⟩
    have hfuel' : (encStream cls ord (rs ++ [(0, 0)])).length < f := by omega
    rw [hstream, parseLoopF_step cls ord f b e _ 0 n [] hb he]
    by_cases hmax : b = maxAddr cls
    · have hN' : normalRecords cls rs ≠ [] := by
        simpa [normalRecords, hmax] using hN
      rw [if_pos hmax, ih hwf' hN' f (n + (recordBytes cls : Int)) hfuel',
        spanSum_cons_base cls b e rs hmax]
    · obtain ⟨hle, hns⟩ := hnorm hmax
      rw [if_neg hmax, if_neg (by simpa using hns)]
      have hU : 256 ^ fieldW cls ≤ U64 := pow_fieldW_le_U64 cls
      have hwrap : u64 (e + U64 - b) = e - b := by
        simp only [u64, U64] at *
        omega
      have hupd : mapUpd ([] : RMap) 0
          (fun w => u64 (w + u64 (e + U64 - b))) 0 =
          [((0 : Int), u64 (e - b))] := by
        simp [mapUpd, hwrap]
      rw [hupd]
      have hv' : u64 (e - b) < U64 := by
        simp only [u64, U64]
        omega
      rw [parse_ranges_aux1 cls ord rs hwf' f (n + (recordBytes cls : Int))
        (u64 (e - b)) hfuel' hv', spanSum_cons_normal cls b e rs hmax]
      have harith : u64 (u64 (e - b) + spanSum cls rs) =
          u64 ((e - b) + spanSum cls rs) := by
        simp only [u64, U64]
        omega
      rw [harith]

theorem parse_file_eq_loop (ord : ByteOrder) (cls : AddrSize) (sb : List Nat) :
    parseDebugRangesFromELF (fileOf ord cls sb) =
      parseLoopF cls ord (sb.length + 1) sb 0 0 [] := by
  cases ord <;> cases cls <;> rfl

/-- C6 counterexample: a list with zero normal entries (a lone sentinel)
decodes to an empty table, not to exactly one entry; and two normal
64-bit entries of span `2^64 - 1` each decode to the wrapped span
`2^64 - 2`, not to their plain sum `2^65 - 2`. -/
theorem ranges_roundtrip_cex :
    parseDebugRangesFromELF
        ⟨.lsb, .class32, some (encStream .a32 .le [(0, 0)])⟩ = .ok [] ∧
    parseDebugRangesFromELF
        ⟨.lsb, .class64, some (encStream .a64 .le
          [(0, 18446744073709551615), (0, 18446744073709551615), (0, 0)])⟩ =
      .ok [(0, 18446744073709551614)] :=
  ⟨rfl, rfl⟩

theorem parse_ranges_aux_nonormal (cls : AddrSize) (ord : ByteOrder) :
    ∀ (rs : List (Nat × Nat)), (∀ p ∈ rs, validRec cls p) →
      normalRecords cls rs = [] →
      ∀ (fuel : Nat) (n : Int),
        (encStream cls ord (rs ++ [(0, 0)])).length < fuel →
        parseLoopF cls ord fuel (encStream cls ord (rs ++ [(0, 0)])) 0 n [] =
          .ok [] := by
  intro rs
  induction rs with
  | nil =>
    intro _ _ fuel n hfuel
    have hz : (0 : Nat) < 256 ^ fieldW cls := by positivity
    have hrb : 0 < recordBytes cls := recordBytes_pos cls
    have hstream : encStream cls ord ([] ++ [(0, 0)]) =
        encRecord cls ord (0, 0) ++ encStream cls ord [] := rfl
    have hlen : (encStream cls ord ([] ++ [(0, 0)])).length = recordBytes cls := by
      rw [hstream]
      simp [encStream, encRecord_length]
    obtain ⟨f, rfl⟩ : ∃ f, fuel = f + 1 := ⟨fuel - 1, by omega⟩
    obtain ⟨f', rfl⟩ : ∃ f', f = f' + 1 := ⟨f - 1, by omega⟩
    rw [hstream]
    show parseLoopF cls ord (f' + 1 + 1) (encRecord cls ord (0, 0) ++ []) 0 n
        [] = _
    rw [parseLoopF_step cls ord (f' + 1) 0 0 [] 0 n [] hz hz,
      if_neg (zero_ne_maxAddr cls), if_pos ⟨rfl, rfl⟩, parseLoopF_nil]
  | cons p rs ih =>
    intro hwf hN fuel n hfuel
    obtain ⟨b, e⟩ := p
    obtain ⟨hb, he, _⟩ := hwf (b, e) (List.mem_cons_self _ _)
    have hmax : b = maxAddr cls := by
      by_contra hc
      simp [normalRecords, hc] at hN
    have hN' : normalRecords cls rs = [] := by
      simpa [normalRecords, hmax] using hN
    have hwf' : ∀ q ∈ rs, validRec cls q :=
      fun q hq => hwf q (List.mem_cons_of_mem _ hq)
    have hrb : 0 < recordBytes cls := recordBytes_pos cls
    have hstream : encStream cls ord (((b, e) :: rs) ++ [(0, 0)]) =
        encRecord cls ord (b, e) ++ encStream cls ord (rs ++ [(0, 0)]) := rfl
    have hlen : (encStream cls ord (((b, e) :: rs) ++ [(0, 0)])).length =
        recordBytes cls + (encStream cls ord (rs ++ [(0, 0)])).length := by
      rw [hstream]
      simp [encRecord_length]
    obtain ⟨f, rfl⟩ : ∃ f, fuel = f + 1 := ⟨fuel - 1, by omega⟩
    have hfuel' : (encStream cls ord (rs ++ [(0, 0)])).length < f := by omega
    rw [hstream, parseLoopF_step cls ord f b e _ 0 n [] hb he, if_pos hmax]
    exact ih hwf' hN' f (n + (recordBytes cls : Int)) hfuel'

/-- C6 (amended): decoding a synthetic range list of well-formed records
with at least one normal entry, any number of base-address-selection
entries, and a terminating sentinel produces exactly one table entry, keyed
at the list's start, whose span is the sum of `end - begin` over the normal
entries reduced modulo `2^64` (equal to the plain sum whenever that sum is
below `2^64`); base-address-selection records are skipped without altering
the current-list-start key and without contributing any span; with no
normal entry the list produces no table entry at all. -/
theorem ranges_roundtrip_single_entry :
    ∀ (cls : AddrSize) (ord : ByteOrder) (rs : List (Nat × Nat)),
      (∀ p ∈ rs, validRec cls p) →
      (normalRecords cls rs ≠ [] →
        parseDebugRangesFromELF
            (fileOf ord cls (encStream cls ord (rs ++ [(0, 0)]))) =
          .ok [(0, u64 (spanSum cls rs))] ∧
        (spanSum cls rs < U64 →
          parseDebugRangesFromELF
              (fileOf ord cls (encStream cls ord (rs ++ [(0, 0)]))) =
            .ok [(0, spanSum cls rs)])) ∧
      (normalRecords cls rs = [] →
        parseDebugRangesFromELF
            (fileOf ord cls (encStream cls ord (rs ++ [(0, 0)]))) =
          .ok []) := by
  intro cls ord rs hwf
  constructor
  · intro hN
    have hwrapped : parseDebugRangesFromELF
        (fileOf ord cls (encStream cls ord (rs ++ [(0, 0)]))) =
          .ok [(0, u64 (spanSum cls rs))] := by
      rw [parse_file_eq_loop]
      exact parse_ranges_aux0 cls ord rs hwf hN _ 0 (by omega)
    refine ⟨hwrapped, ?_⟩
    intro hsum
    rw [hwrapped]
    have : u64 (spanSum cls rs) = spanSum cls rs := by
      simp only [u64, U64] at *
      omega
    rw [this]
  · intro hN
    rw [parse_file_eq_loop]
    exact parse_ranges_aux_nonormal cls ord rs hwf hN _ 0 (by omega)

/-- Witness for C6: the one-normal-record list `(10, 50)` with a sentinel
decodes to the single table entry `0 : 40` (plain sum, below the wrap
threshold); two 64-bit records of span `2^64 - 1` each decode to the single
entry holding their sum modulo `2^64`; and a list of one base-address
record with no normal entry decodes to the empty table. -/
theorem ranges_roundtrip_single_entry_witness :
    parseDebugRangesFromELF
        (fileOf .le .a32 (encStream .a32 .le [(10, 50), (0, 0)])) =
      .ok [(0, 40)] ∧
    parseDebugRangesFromELF
        (fileOf .le .a64 (encStream .a64 .le
          [(0, 18446744073709551615), (0, 18446744073709551615), (0, 0)])) =
      .ok [(0, 18446744073709551614)] ∧
    parseDebugRangesFromELF
        (fileOf .le .a32 (encStream .a32 .le [(4294967295, 7), (0, 0)])) =
      .ok [] := by
  refine ⟨?_, ?_, ?_⟩
  · have h := ((ranges_roundtrip_single_entry .a32 .le [(10, 50)]
      (by decide)).1 (by decide)).2 (by decide)
    simpa [spanSum, normalRecords] using h
  · have h := ((ranges_roundtrip_single_entry .a64 .le
      [(0, 18446744073709551615), (0, 18446744073709551615)]
      (by decide)).1 (by decide)).1
    simpa [spanSum, normalRecords, u64, U64] using h
  · have h := (ranges_roundtrip_single_entry .a32 .le [(4294967295, 7)]
      (by decide)).2 (by decide)
    simpa using h

theorem u64_lt (n : Nat) : u64 n < U64 := by
  simp [u64, U64]
  omega

theorem u64_add_left (a b : Nat) : u64 (u64 a + b) = u64 (a + b) := by
  simp only [u64]
  omega

theorem alookup_mapUpd_self [DecidableEq κ] (m : List (κ × α)) (k : κ)
    (f : α → α) (x : α) :
    alookup (mapUpd m k f x) k = some (f ((alookup m k).getD x)) := by
  induction m with
  | nil => simp [mapUpd, alookup]
  | cons p rest ih =>
    obtain ⟨k', v⟩ := p
    by_cases h : k' = k
    · subst h
      simp [mapUpd, alookup]
    · simp [mapUpd, alookup, h, ih]

theorem alookup_mapUpd_ne [DecidableEq κ] (m : List (κ × α)) (k k' : κ)
    (f : α → α) (x : α) (h : k' ≠ k) :
    alookup (mapUpd m k f x) k' = alookup m k' := by
  induction m with
  | nil =>
    simp only [mapUpd, alookup]
    rw [if_neg (fun hh => h hh.symm)]
  | cons p rest ih =>
    obtain ⟨k'', v⟩ := p
    by_cases h2 : k'' = k
    · subst h2
      simp only [mapUpd, if_pos rfl, alookup]
      simp only [if_neg (show ¬ k'' = k' from fun hh => h hh.symm)]
    · simp only [mapUpd, if_neg h2, alookup]
      by_cases h3 : k'' = k'
      · simp [h3]
      · simp [h3, ih]

theorem keys_mapUpd [DecidableEq κ] (m : List (κ × α)) (k : κ)
    (f : α → α) (x : α) :
    (mapUpd m k f x).map Prod.fst =
      if k ∈ m.map Prod.fst then m.map Prod.fst else m.map Prod.fst ++ [k] := by
  induction m with
  | nil => simp [mapUpd]
  | cons p rest ih =>
    obtain ⟨k', v⟩ := p
    by_cases h : k' = k
    · subst h
      simp [mapUpd]
    · simp only [mapUpd, if_neg h, List.map_cons, ih]
      by_cases h2 : k ∈ rest.map Prod.fst
      · rw [if_pos h2, if_pos (by simp [h2])]
      · rw [if_neg h2, if_neg (by
          simp only [List.mem_cons]
          rw [not_or]
          exact ⟨fun hh => h hh.symm, h2⟩)]
        simp

theorem nodupKeys_mapUpd [DecidableEq κ] (m : List (κ × α)) (k : κ)
    (f : α → α) (x : α) (h : nodupKeys m) : nodupKeys (mapUpd m k f x) := by
  unfold nodupKeys at *
  rw [keys_mapUpd]
  by_cases h2 : k ∈ m.map Prod.fst
  · simpa [h2]
  · simpa [h2, List.nodup_append]

theorem alookup_eq_some_mem [DecidableEq κ] (m : List (κ × α)) (k : κ)
    (v : α) (h : alookup m k = some v) : (k, v) ∈ m := by
  induction m with
  | nil => simp [alookup] at h
  | cons p rest ih =>
    obtain ⟨k', w⟩ := p
    by_cases h2 : k' = k
    · subst h2
      simp [alookup] at h
      simp [h]
    · simp [alookup, h2] at h
      exact List.mem_cons_of_mem _ (ih h)

theorem mem_alookup_of_nodup [DecidableEq κ] (m : List (κ × α)) (k : κ)
    (v : α) (hn : nodupKeys m) (h : (k, v) ∈ m) : alookup m k = some v := by
  induction m with
  | nil => simp at h
  | cons p rest ih =>
    obtain ⟨k', w⟩ := p
    have hn2 : k' ∉ rest.map Prod.fst ∧ (rest.map Prod.fst).Nodup :=
      List.nodup_cons.mp (by simpa [nodupKeys] using hn)
    rcases List.mem_cons.mp h with h1 | h1
    · have hk : k = k' := congrArg Prod.fst h1
      have hv : v = w := congrArg Prod.snd h1
      subst hk
      subst hv
      simp [alookup]
    · have hk : k ≠ k' := by
        intro hh
        subst hh
        exact hn2.1 (List.mem_map_of_mem Prod.fst h1)
      rw [show alookup ((k', w) :: rest) k =
          if k' = k then some w else alookup rest k from rfl,
        if_neg (fun hh => hk hh.symm)]
      exact ih hn2.2 h1

theorem alookup_none_iff [DecidableEq κ] (m : List (κ × α)) (k : κ) :
    alookup m k = none ↔ k ∉ m.map Prod.fst := by
  induction m with
  | nil => simp [alookup]
  | cons p rest ih =>
    obtain ⟨k', v⟩ := p
    by_cases h : k' = k
    · subst h
      simp [alookup]
    · rw [show alookup ((k', v) :: rest) k =
          if k' = k then some v else alookup rest k from rfl, if_neg h]
      rw [List.map_cons, List.mem_cons, ih]
      constructor
      · intro hni
        rw [not_or]
        exact ⟨fun hh => h hh.symm, hni⟩
      · intro hni
        exact (not_or.mp hni).2

theorem alookup_eq_of_perm [DecidableEq κ] (m₁ m₂ : List (κ × α))
    (hn : nodupKeys m₁) (hp : m₁.Perm m₂) (k : κ) :
    alookup m₁ k = alookup m₂ k := by
  cases h : alookup m₁ k with
  | some v =>
    exact (mem_alookup_of_nodup m₂ k v
      ((hp.map Prod.fst).nodup hn)
      (hp.mem_iff.mp (alookup_eq_some_mem m₁ k v h))).symm
  | none =>
    have := (alookup_none_iff m₁ k).mp h
    exact ((alookup_none_iff m₂ k).mpr
      (fun hm => this ((hp.map Prod.fst).mem_iff.mpr hm))).symm

theorem mapUpd_cons [DecidableEq κ] (a k : κ) (b : α) (rest : List (κ × α))
    (f : α → α) (x : α) :
    mapUpd ((a, b) :: rest) k f x =
      if a = k then (a, f b) :: rest else (a, b) :: mapUpd rest k f x := rfl

theorem mapUpd_perm [DecidableEq κ] {m₁ m₂ : List (κ × α)} (hp : m₁.Perm m₂)
    (hn : nodupKeys m₁) (k : κ) (f : α → α) (x : α) :
    (mapUpd m₁ k f x).Perm (mapUpd m₂ k f x) := by
  induction hp with
  | nil => exact List.Perm.refl _
  | cons p t ih =>
    obtain ⟨k', v⟩ := p
    by_cases h : k' = k
    · subst h
      simp only [mapUpd_cons, if_pos rfl]
      exact (t.cons _)
    · simp only [mapUpd_cons, if_neg h]
      have hn' : nodupKeys _ :=
        (List.nodup_cons.mp (by simpa [nodupKeys] using hn)).2
      exact (ih (by simpa [nodupKeys] using hn')).cons _
  | swap p q t =>
    obtain ⟨k₁, v₁⟩ := p
    obtain ⟨k₂, v₂⟩ := q
    have hmap : (k₂ :: k₁ :: t.map Prod.fst).Nodup := by
      simpa only [nodupKeys, List.map_cons] using hn
    have hne : k₂ ≠ k₁ := by
      intro hh
      exact (List.nodup_cons.mp hmap).1 (hh ▸ List.mem_cons_self k₁ _)
    by_cases h1 : k₂ = k
    · subst h1
      have hne' : ¬ k₁ = k₂ := fun hh => hne hh.symm
      have e₁ : mapUpd ((k₂, v₂) :: (k₁, v₁) :: t) k₂ f x =
          (k₂, f v₂) :: (k₁, v₁) :: t := by simp [mapUpd_cons]
      have e₂ : mapUpd ((k₁, v₁) :: (k₂, v₂) :: t) k₂ f x =
          (k₁, v₁) :: (k₂, f v₂) :: t := by simp [mapUpd_cons, hne']
      rw [e₁, e₂]
      exact List.Perm.swap _ _ t
    · by_cases h2 : k₁ = k
      · subst h2
        have e₁ : mapUpd ((k₂, v₂) :: (k₁, v₁) :: t) k₁ f x =
            (k₂, v₂) :: (k₁, f v₁) :: t := by simp [mapUpd_cons, h1]
        have e₂ : mapUpd ((k₁, v₁) :: (k₂, v₂) :: t) k₁ f x =
            (k₁, f v₁) :: (k₂, v₂) :: t := by simp [mapUpd_cons]
        rw [e₁, e₂]
        exact List.Perm.swap _ _ t
      · have e₁ : mapUpd ((k₂, v₂) :: (k₁, v₁) :: t) k f x =
            (k₂, v₂) :: (k₁, v₁) :: mapUpd t k f x := by
          simp [mapUpd_cons, h1, h2]
        have e₂ : mapUpd ((k₁, v₁) :: (k₂, v₂) :: t) k f x =
            (k₁, v₁) :: (k₂, v₂) :: mapUpd t k f x := by
          simp [mapUpd_cons, h1, h2]
        rw [e₁, e₂]
        exact List.Perm.swap _ _ _
  | trans h12 h23 ih12 ih23 =>
    exact (ih12 hn).trans (ih23 ((h12.map Prod.fst).nodup hn))

theorem mapUpd_mapUpd_ne [DecidableEq κ] (m : List (κ × α)) (k₁ k₂ : κ)
    (f₁ f₂ : α → α) (x₁ x₂ : α) (h : k₁ ≠ k₂) :
    (mapUpd (mapUpd m k₁ f₁ x₁) k₂ f₂ x₂).Perm
      (mapUpd (mapUpd m k₂ f₂ x₂) k₁ f₁ x₁) := by
  induction m with
  | nil =>
    have e₁ : mapUpd (mapUpd ([] : List (κ × α)) k₁ f₁ x₁) k₂ f₂ x₂ =
        [(k₁, f₁ x₁), (k₂, f₂ x₂)] := by simp [mapUpd, h]
    have e₂ : mapUpd (mapUpd ([] : List (κ × α)) k₂ f₂ x₂) k₁ f₁ x₁ =
        [(k₂, f₂ x₂), (k₁, f₁ x₁)] := by simp [mapUpd, Ne.symm h]
    rw [e₁, e₂]
    exact List.Perm.swap _ _ _
  | cons p rest ih =>
    obtain ⟨k, v⟩ := p
    by_cases h1 : k = k₁
    · subst h1
      have e₁ : mapUpd (mapUpd ((k, v) :: rest) k f₁ x₁) k₂ f₂ x₂ =
          (k, f₁ v) :: mapUpd rest k₂ f₂ x₂ := by simp [mapUpd_cons, h]
      have e₂ : mapUpd (mapUpd ((k, v) :: rest) k₂ f₂ x₂) k f₁ x₁ =
          (k, f₁ v) :: mapUpd rest k₂ f₂ x₂ := by simp [mapUpd_cons, h, Ne.symm h]
      rw [e₁, e₂]
    · by_cases h2 : k = k₂
      · subst h2
        have e₁ : mapUpd (mapUpd ((k, v) :: rest) k₁ f₁ x₁) k f₂ x₂ =
            (k, f₂ v) :: mapUpd rest k₁ f₁ x₁ := by simp [mapUpd_cons, h1]
        have e₂ : mapUpd (mapUpd ((k, v) :: rest) k f₂ x₂) k₁ f₁ x₁ =
            (k, f₂ v) :: mapUpd rest k₁ f₁ x₁ := by simp [mapUpd_cons, h1]
        rw [e₁, e₂]
      · have e₁ : mapUpd (mapUpd ((k, v) :: rest) k₁ f₁ x₁) k₂ f₂ x₂ =
            (k, v) :: mapUpd (mapUpd rest k₁ f₁ x₁) k₂ f₂ x₂ := by
          simp [mapUpd_cons, h1, h2]
        have e₂ : mapUpd (mapUpd ((k, v) :: rest) k₂ f₂ x₂) k₁ f₁ x₁ =
            (k, v) :: mapUpd (mapUpd rest k₂ f₂ x₂) k₁ f₁ x₁ := by
          simp [mapUpd_cons, h1, h2]
        rw [e₁, e₂]
        exact ih.cons _

theorem mapUpd_mapUpd_same [DecidableEq κ] (m : List (κ × α)) (k : κ)
    (f g : α → α) (x : α) (hfg : ∀ v, g (f v) = f (g v)) :
    mapUpd (mapUpd m k f x) k g x = mapUpd (mapUpd m k g x) k f x := by
  induction m with
  | nil => simp [mapUpd, hfg x]
  | cons p rest ih =>
    obtain ⟨k', v⟩ := p
    by_cases h : k' = k
    · subst h
      simp [mapUpd_cons, hfg v]
    · simp [mapUpd_cons, h, ih]

/-- The effect of one inline call site on the per-origin statistics map:
`some (origin, bytes)` when the site has an abstract origin and a resolved
byte extent, `none` when it is skipped. -/
def siteAct (rangeSizes : RMap) (e : Entry) : Option (Nat × Nat) :=
  match e.tag with
  | .inlinedSubroutine =>
    match e.abstractOrigin with
    | some o =>
      match bytesForInlinedSubroutine rangeSizes e with
      | .ok b => some (o, b)
      | .error _ => none
    | none => none
  | _ => none

theorem scanStep_origin (rangeSizes : RMap) (σ : ScanState) (e : Entry) :
    (scanStep rangeSizes σ e).abstractOriginStats =
      match siteAct rangeSizes e with
      | none => σ.abstractOriginStats
      | some (o, b) =>
          mapUpd σ.abstractOriginStats o (statAcc b) ⟨0, 0⟩ := by
  cases htag : e.tag
  · cases hl : e.linkageName <;> cases hs : e.specification <;>
      cases hnm : e.name <;> simp [scanStep, siteAct, htag, hl, hs, hnm]
  · cases ho : e.abstractOrigin with
    | none => simp [scanStep, siteAct, htag, ho]
    | some o =>
      cases hb : bytesForInlinedSubroutine rangeSizes e <;>
        simp [scanStep, siteAct, htag, ho, hb]
  · simp [scanStep, siteAct, htag]

theorem scanStep_names_inlined (rangeSizes : RMap) (σ : ScanState) (e : Entry)
    (htag : e.tag = .inlinedSubroutine) :
    (scanStep rangeSizes σ e).names = σ.names ∧
      (scanStep rangeSizes σ e).specs = σ.specs := by
  cases ho : e.abstractOrigin with
  | none => simp [scanStep, htag, ho]
  | some o =>
    cases hb : bytesForInlinedSubroutine rangeSizes e <;>
      simp [scanStep, htag, ho, hb]

theorem scanStep_nodup (rangeSizes : RMap) (σ : ScanState) (e : Entry)
    (hn : nodupKeys σ.abstractOriginStats) :
    nodupKeys (scanStep rangeSizes σ e).abstractOriginStats := by
  rw [scanStep_origin]
  cases hact : siteAct rangeSizes e with
  | none => exact hn
  | some p => exact nodupKeys_mapUpd _ _ _ _ hn

theorem scanFold_nodup (rangeSizes : RMap) :
    ∀ (l : List Entry) (σ : ScanState),
      nodupKeys σ.abstractOriginStats →
      nodupKeys (List.foldl (scanStep rangeSizes) σ l).abstractOriginStats := by
  intro l
  induction l with
  | nil => intro σ hn; exact hn
  | cons e rest ih =>
    intro σ hn
    exact ih _ (scanStep_nodup rangeSizes σ e hn)

/-- Two scan states that agree on the name and specification tables and
hold the same per-origin statistics up to reordering. -/
def stateRel (σ τ : ScanState) : Prop :=
  σ.names = τ.names ∧ σ.specs = τ.specs ∧
    σ.abstractOriginStats.Perm τ.abstractOriginStats

theorem stateRel_trans {a b c : ScanState} (h1 : stateRel a b)
    (h2 : stateRel b c) : stateRel a c :=
  ⟨h1.1.trans h2.1, h1.2.1.trans h2.2.1, h1.2.2.trans h2.2.2⟩

theorem scanStep_rel (rangeSizes : RMap) {σ τ : ScanState} (h : stateRel σ τ)
    (hn : nodupKeys σ.abstractOriginStats) (e : Entry) :
    stateRel (scanStep rangeSizes σ e) (scanStep rangeSizes τ e) := by
  obtain ⟨h1, h2, h3⟩ := h
  cases htag : e.tag
  · cases hl : e.linkageName <;> cases hs : e.specification <;>
      cases hnm : e.name <;>
      simp [scanStep, htag, hl, hs, hnm, stateRel, h1, h2] <;> exact h3
  · refine ⟨?_, ?_, ?_⟩
    · rw [(scanStep_names_inlined rangeSizes σ e htag).1,
        (scanStep_names_inlined rangeSizes τ e htag).1, h1]
    · rw [(scanStep_names_inlined rangeSizes σ e htag).2,
        (scanStep_names_inlined rangeSizes τ e htag).2, h2]
    · rw [scanStep_origin, scanStep_origin]
      cases hact : siteAct rangeSizes e with
      | none => exact h3
      | some p => exact mapUpd_perm h3 hn _ _ _
  · simpa [scanStep, htag, stateRel, h1, h2] using h3

theorem scanFold_rel (rangeSizes : RMap) :
    ∀ (l : List Entry) {σ τ : ScanState}, stateRel σ τ →
      nodupKeys σ.abstractOriginStats →
      stateRel (List.foldl (scanStep rangeSizes) σ l)
        (List.foldl (scanStep rangeSizes) τ l) := by
  intro l
  induction l with
  | nil => intro σ τ h _; exact h
  | cons e rest ih =>
    intro σ τ h hn
    simp only [List.foldl_cons]
    exact ih (scanStep_rel rangeSizes h hn e) (scanStep_nodup rangeSizes σ e hn)

theorem statAcc_comm (b₁ b₂ : Nat) (v : stats) :
    statAcc b₂ (statAcc b₁ v) = statAcc b₁ (statAcc b₂ v) := by
  simp [statAcc, u64_add_left, Nat.add_right_comm]

theorem scanStep_swap (rangeSizes : RMap) (σ : ScanState) (e f : Entry)
    (he : e.tag = .inlinedSubroutine) (hf : f.tag = .inlinedSubroutine) :
    stateRel (scanStep rangeSizes (scanStep rangeSizes σ e) f)
      (scanStep rangeSizes (scanStep rangeSizes σ f) e) := by
  refine ⟨?_, ?_, ?_⟩
  · rw [(scanStep_names_inlined rangeSizes _ f hf).1,
      (scanStep_names_inlined rangeSizes σ e he).1,
      (scanStep_names_inlined rangeSizes _ e he).1,
      (scanStep_names_inlined rangeSizes σ f hf).1]
  · rw [(scanStep_names_inlined rangeSizes _ f hf).2,
      (scanStep_names_inlined rangeSizes σ e he).2,
      (scanStep_names_inlined rangeSizes _ e he).2,
      (scanStep_names_inlined rangeSizes σ f hf).2]
  · rw [scanStep_origin, scanStep_origin, scanStep_origin, scanStep_origin]
    cases hae : siteAct rangeSizes e with
    | none =>
      cases haf : siteAct rangeSizes f <;> exact List.Perm.refl _
    | some p =>
      obtain ⟨o₁, b₁⟩ := p
      cases haf : siteAct rangeSizes f with
      | none => exact List.Perm.refl _
      | some q =>
        obtain ⟨o₂, b₂⟩ := q
        dsimp only
        by_cases ho : o₁ = o₂
        · subst ho
          rw [mapUpd_mapUpd_same σ.abstractOriginStats o₁ (statAcc b₁)
            (statAcc b₂) ⟨0, 0⟩ (statAcc_comm b₁ b₂)]
        · exact mapUpd_mapUpd_ne σ.abstractOriginStats o₁ o₂ _ _ _ _ ho

theorem scanPerm (rangeSizes : RMap) :
    ∀ {l₁ l₂ : List Entry}, l₁.Perm l₂ →
      (∀ e ∈ l₁, e.tag = .inlinedSubroutine) →
      ∀ σ : ScanState, nodupKeys σ.abstractOriginStats →
      stateRel (List.foldl (scanStep rangeSizes) σ l₁)
        (List.foldl (scanStep rangeSizes) σ l₂) := by
  intro l₁ l₂ hp
  induction hp with
  | nil => intro _ σ _; exact ⟨rfl, rfl, List.Perm.refl _⟩
  | cons x t ih =>
    intro htags σ hn
    simp only [List.foldl_cons]
    exact ih (fun e he => htags e (List.mem_cons_of_mem _ he))
      (scanStep rangeSizes σ x) (scanStep_nodup rangeSizes σ x hn)
  | swap x y t =>
    intro htags σ hn
    simp only [List.foldl_cons]
    have hy : y.tag = .inlinedSubroutine := htags y (List.mem_cons_self _ _)
    have hx : x.tag = .inlinedSubroutine :=
      htags x (List.mem_cons_of_mem _ (List.mem_cons_self _ _))
    exact scanFold_rel rangeSizes t
      (scanStep_swap rangeSizes σ y x hy hx)
      (scanStep_nodup rangeSizes _ x (scanStep_nodup rangeSizes σ y hn))
  | trans h12 h23 ih12 ih23 =>
    intro htags σ hn
    exact stateRel_trans (ih12 htags σ hn)
      (ih23 (fun e he => htags e (h12.mem_iff.mpr he)) σ hn)

/-- Relation between two possible outcomes of the resolution-and-merge pass:
both diverge, or both produce the same per-name table up to reordering. -/
def optRel (a b : Option (List (String × stats))) : Prop :=
  match a, b with
  | none, none => True
  | some x, some y => x.Perm y
  | _, _ => False

theorem optRel_refl (a : Option (List (String × stats))) : optRel a a := by
  cases a <;> simp [optRel]

theorem optRel_trans {a b c : Option (List (String × stats))}
    (h1 : optRel a b) (h2 : optRel b c) : optRel a c := by
  cases a <;> cases b <;> cases c <;> simp [optRel] at * <;>
    exact h1.trans h2

theorem statMerge_comm_assoc (s₁ s₂ v : stats) :
    statMerge (statMerge v s₁) s₂ = statMerge (statMerge v s₂) s₁ := by
  simp [statMerge, u64_add_left, Nat.add_right_comm]

theorem mergePass_acc_perm (r : Nat → Option String) :
    ∀ (om : List (Nat × stats)) {acc₁ acc₂ : List (String × stats)},
      acc₁.Perm acc₂ → nodupKeys acc₁ →
      optRel (mergePass r om acc₁) (mergePass r om acc₂) := by
  intro om
  induction om with
  | nil => intro acc₁ acc₂ hp _; exact hp
  | cons p om' ih =>
    intro acc₁ acc₂ hp hn
    obtain ⟨o, s⟩ := p
    cases hr : r o with
    | none => simp [mergePass, hr, optRel]
    | some nm =>
      simp only [mergePass, hr]
      exact ih (mapUpd_perm hp hn nm _ _) (nodupKeys_mapUpd _ _ _ _ hn)

theorem mergePass_perm (r : Nat → Option String) :
    ∀ {om₁ om₂ : List (Nat × stats)}, om₁.Perm om₂ →
      ∀ acc : List (String × stats), nodupKeys acc →
      optRel (mergePass r om₁ acc) (mergePass r om₂ acc) := by
  intro om₁ om₂ hp
  induction hp with
  | nil => intro acc _; exact List.Perm.refl _
  | cons p t ih =>
    intro acc hn
    obtain ⟨o, s⟩ := p
    cases hr : r o with
    | none => simp [mergePass, hr, optRel]
    | some nm =>
      simp only [mergePass, hr]
      exact ih _ (nodupKeys_mapUpd _ _ _ _ hn)
  | swap p q t =>
    intro acc hn
    obtain ⟨o₁, s₁⟩ := p
    obtain ⟨o₂, s₂⟩ := q
    cases hr₂ : r o₂ with
    | none =>
      cases hr₁ : r o₁ <;> simp [mergePass, hr₁, hr₂, optRel]
    | some n₂ =>
      cases hr₁ : r o₁ with
      | none => simp [mergePass, hr₁, hr₂, optRel]
      | some n₁ =>
        simp only [mergePass, hr₁, hr₂]
        by_cases hnm : n₁ = n₂
        · subst hnm
          rw [mapUpd_mapUpd_same acc n₁ (statMerge · s₂) (statMerge · s₁)
            ⟨0, 0⟩ (fun v => statMerge_comm_assoc s₂ s₁ v)]
          exact optRel_refl _
        · exact mergePass_acc_perm r t
            (mapUpd_mapUpd_ne acc n₂ n₁ _ _ _ _ (fun hh => hnm hh.symm))
            (nodupKeys_mapUpd _ _ _ _ (nodupKeys_mapUpd _ _ _ _ hn))
  | trans h12 h23 ih12 ih23 =>
    intro acc hn
    exact optRel_trans (ih12 acc hn) (ih23 acc hn)

theorem mergePass_nodup (r : Nat → Option String) :
    ∀ (om : List (Nat × stats)) (acc ns : List (String × stats)),
      nodupKeys acc → mergePass r om acc = some ns → nodupKeys ns := by
  intro om
  induction om with
  | nil =>
    intro acc ns hn hns
    simp [mergePass] at hns
    exact hns ▸ hn
  | cons p om' ih =>
    intro acc ns hn hns
    obtain ⟨o, s⟩ := p
    cases hr : r o with
    | none => simp [mergePass, hr] at hns
    | some nm =>
      simp only [mergePass, hr] at hns
      exact ih _ ns (nodupKeys_mapUpd _ _ _ _ hn) hns

theorem mergePass_lookup (r : Nat → Option String) :
    ∀ (om : List (Nat × stats)) (acc ns : List (String × stats)),
      mergePass r om acc = some ns → ∀ n : String,
      alookup ns n =
        match alookup acc n with
        | some s => some (List.foldl statMerge s (valuesFor r om n))
        | none =>
          if valuesFor r om n = [] then none
          else some (List.foldl statMerge ⟨0, 0⟩ (valuesFor r om n)) := by
  intro om
  induction om with
  | nil =>
    intro acc ns hns n
    simp [mergePass] at hns
    subst hns
    cases halk : alookup acc n <;> simp [valuesFor, halk]
  | cons p om' ih =>
    intro acc ns hns n
    obtain ⟨o, s⟩ := p
    cases hr : r o with
    | none => simp [mergePass, hr] at hns
    | some nm =>
      simp only [mergePass, hr] at hns
      have hrec := ih _ ns hns n
      by_cases hnm : nm = n
      · subst hnm
        have hvf : valuesFor r ((o, s) :: om') nm = s :: valuesFor r om' nm := by
          simp [valuesFor, hr]
        rw [hvf]
        rw [alookup_mapUpd_self acc nm (statMerge · s) ⟨0, 0⟩] at hrec
        cases halk : alookup acc nm with
        | some t =>
          rw [halk] at hrec
          simp only [Option.getD_some] at hrec
          simp [hrec, List.foldl_cons]
        | none =>
          rw [halk] at hrec
          simp only [Option.getD_none] at hrec
          simp [hrec, List.foldl_cons]
      · have hvf : valuesFor r ((o, s) :: om') n = valuesFor r om' n := by
          simp [valuesFor, hr, hnm]
        rw [hvf]
        rw [alookup_mapUpd_ne acc nm n (statMerge · s) ⟨0, 0⟩
          (fun hh => hnm hh.symm)] at hrec
        exact hrec

theorem nodupKeys_nil_pairs : nodupKeys ([] : List (String × stats)) :=
  List.nodup_nil

/-- C7: final aggregation is order-independent — processing the same
multiset of inline-call-site entries in any permutation yields identical
final per-name statistics (as a lookup table; both runs also diverge
together) — and each name's final statistic equals the merge (sum, in
`uint64` arithmetic) of the per-origin statistics of exactly the origins
that resolve to that name. -/
theorem aggregation_order_independent :
    (∀ (fuel : Nat) (rangeSizes : RMap) (subs sites₁ sites₂ : List Entry),
      (∀ e ∈ sites₁, e.tag = .inlinedSubroutine) → sites₁.Perm sites₂ →
      ∀ n : String,
        (analyzeEntries fuel rangeSizes (subs ++ sites₁)).map
            (fun ns => alookup ns n) =
          (analyzeEntries fuel rangeSizes (subs ++ sites₂)).map
            (fun ns => alookup ns n)) ∧
    (∀ (fuel : Nat) (rangeSizes : RMap) (entries : List Entry)
        (ns : List (String × stats)),
      analyzeEntries fuel rangeSizes entries = some ns →
      ∀ (n : String) (s : stats), alookup ns n = some s →
      s = List.foldl statMerge ⟨0, 0⟩
        (valuesFor
          (resolvedName (scanEntries rangeSizes entries).names
            (scanEntries rangeSizes entries).specs fuel)
          (scanEntries rangeSizes entries).abstractOriginStats n)) := by
  constructor
  · intro fuel rangeSizes subs sites₁ sites₂ htags hperm n
    have hinit : nodupKeys initScanState.abstractOriginStats := List.nodup_nil
    have hn₀ := scanFold_nodup rangeSizes subs initScanState hinit
    obtain ⟨hnm, hsp, hper⟩ := scanPerm rangeSizes hperm htags
      (List.foldl (scanStep rangeSizes) initScanState subs) hn₀
    simp only [analyzeEntries, scanEntries, List.foldl_append]
    have hres : resolvedName
        (List.foldl (scanStep rangeSizes)
          (List.foldl (scanStep rangeSizes) initScanState subs) sites₁).names
        (List.foldl (scanStep rangeSizes)
          (List.foldl (scanStep rangeSizes) initScanState subs) sites₁).specs
        fuel = resolvedName
        (List.foldl (scanStep rangeSizes)
          (List.foldl (scanStep rangeSizes) initScanState subs) sites₂).names
        (List.foldl (scanStep rangeSizes)
          (List.foldl (scanStep rangeSizes) initScanState subs) sites₂).specs
        fuel := by rw [hnm, hsp]
    rw [← hres]
    have hopt := mergePass_perm (resolvedName
        (List.foldl (scanStep rangeSizes)
          (List.foldl (scanStep rangeSizes) initScanState subs) sites₁).names
        (List.foldl (scanStep rangeSizes)
          (List.foldl (scanStep rangeSizes) initScanState subs) sites₁).specs
        fuel) hper [] nodupKeys_nil_pairs
    cases hm₁ : mergePass (resolvedName
        (List.foldl (scanStep rangeSizes)
          (List.foldl (scanStep rangeSizes) initScanState subs) sites₁).names
        (List.foldl (scanStep rangeSizes)
          (List.foldl (scanStep rangeSizes) initScanState subs) sites₁).specs
        fuel)
        (List.foldl (scanStep rangeSizes)
          (List.foldl (scanStep rangeSizes) initScanState subs)
            sites₁).abstractOriginStats [] with
    | none =>
      cases hm₂ : mergePass _ (List.foldl (scanStep rangeSizes)
          (List.foldl (scanStep rangeSizes) initScanState subs)
            sites₂).abstractOriginStats [] with
      | none => rfl
      | some ns₂ =>
        rw [hm₁, hm₂] at hopt
        exact absurd hopt (by simp [optRel])
    | some ns₁ =>
      cases hm₂ : mergePass _ (List.foldl (scanStep rangeSizes)
          (List.foldl (scanStep rangeSizes) initScanState subs)
            sites₂).abstractOriginStats [] with
      | none =>
        rw [hm₁, hm₂] at hopt
        exact absurd hopt (by simp [optRel])
      | some ns₂ =>
        rw [hm₁, hm₂] at hopt
        have hnd : nodupKeys ns₁ := mergePass_nodup _ _ _ ns₁
          nodupKeys_nil_pairs hm₁
        exact congrArg some (alookup_eq_of_perm ns₁ ns₂ hnd hopt n)
  · intro fuel rangeSizes entries ns hns n s halk
    simp only [analyzeEntries] at hns
    have h := mergePass_lookup _ _ _ ns hns n
    rw [halk] at h
    rcases hvf : valuesFor
        (resolvedName (scanEntries rangeSizes entries).names
          (scanEntries rangeSizes entries).specs fuel)
        (scanEntries rangeSizes entries).abstractOriginStats n with _ | _
    · rw [hvf] at h
      simp [alookup] at h
    · rw [hvf] at h
      simp only [alookup, reduceCtorEq, if_false] at h
      exact Option.some.inj h

/-- Witness for C7: swapping two inline call sites with different dangling
origins leaves the final per-name table lookup unchanged. -/
theorem aggregation_order_independent_witness :
    (analyzeEntries 1 []
        ([] ++ [⟨1, .inlinedSubroutine, none, none, none, some 100, some 5, none⟩,
          ⟨2, .inlinedSubroutine, none, none, none, some 200, some 7, none⟩])).map
        (fun ns => alookup ns "") =
      (analyzeEntries 1 []
        ([] ++ [⟨2, .inlinedSubroutine, none, none, none, some 200, some 7, none⟩,
          ⟨1, .inlinedSubroutine, none, none, none, some 100, some 5, none⟩])).map
        (fun ns => alookup ns "") :=
  aggregation_order_independent.1 1 [] []
    [⟨1, .inlinedSubroutine, none, none, none, some 100, some 5, none⟩,
     ⟨2, .inlinedSubroutine, none, none, none, some 200, some 7, none⟩]
    [⟨2, .inlinedSubroutine, none, none, none, some 200, some 7, none⟩,
     ⟨1, .inlinedSubroutine, none, none, none, some 100, some 5, none⟩]
    (by decide) (List.Perm.swap _ _ _) ""

/-- C4 counterexample: two inline call sites whose origins (offsets 100 and
200) both fail name resolution are not excluded from aggregation — their
statistics are merged together into the single empty-string bucket of the
final table. -/
theorem unresolved_origin_cex :
    analyzeEntries 1 []
        [⟨1, .inlinedSubroutine, none, none, none, some 100, some 5, none⟩,
         ⟨2, .inlinedSubroutine, none, none, none, some 200, some 7, none⟩] =
      some [("", ⟨2, 12⟩)] := by
  rfl

/-- C4 (amended): a failing origin resolution does not abort the analysis;
the offending entry is reported (logged) and its statistics are accumulated
into the empty-string name bucket of the final table — the bucket's value is
the merge of all origins resolving to the empty name — rather than being
excluded. -/
theorem unresolved_origin_merged :
    ∀ (fuel : Nat) (rangeSizes : RMap) (entries : List Entry)
      (ns : List (String × stats)) (o : Nat) (s : stats) (msg : String),
      analyzeEntries fuel rangeSizes entries = some ns →
      (o, s) ∈ (scanEntries rangeSizes entries).abstractOriginStats →
      nameForSubprogramF (scanEntries rangeSizes entries).names
        (scanEntries rangeSizes entries).specs fuel o = some (.error msg) →
      s ∈ valuesFor (resolvedName (scanEntries rangeSizes entries).names
            (scanEntries rangeSizes entries).specs fuel)
          (scanEntries rangeSizes entries).abstractOriginStats "" ∧
      alookup ns "" = some (List.foldl statMerge ⟨0, 0⟩
        (valuesFor (resolvedName (scanEntries rangeSizes entries).names
            (scanEntries rangeSizes entries).specs fuel)
          (scanEntries rangeSizes entries).abstractOriginStats "")) := by
  intro fuel rangeSizes entries ns o s msg hns hmem herr
  have hres : resolvedName (scanEntries rangeSizes entries).names
      (scanEntries rangeSizes entries).specs fuel o = some "" := by
    simp [resolvedName, herr]
  have hmemv : s ∈ valuesFor (resolvedName (scanEntries rangeSizes entries).names
      (scanEntries rangeSizes entries).specs fuel)
      (scanEntries rangeSizes entries).abstractOriginStats "" := by
    simp only [valuesFor, List.mem_filterMap]
    exact ⟨(o, s), hmem, by simp [hres]⟩
  have hlk := mergePass_lookup _ _ _ ns (by simpa [analyzeEntries] using hns) ""
  simp only [alookup] at hlk
  rw [if_neg (List.ne_nil_of_mem hmemv)] at hlk
  exact ⟨hmemv, hlk⟩

/-- Witness for C4: one call site with dangling origin 100 lands in the
empty-string bucket of the final table. -/
theorem unresolved_origin_merged_witness :
    (⟨1, 5⟩ : stats) ∈ valuesFor
        (resolvedName (scanEntries []
            [⟨1, .inlinedSubroutine, none, none, none, some 100, some 5, none⟩]).names
          (scanEntries []
            [⟨1, .inlinedSubroutine, none, none, none, some 100, some 5, none⟩]).specs 1)
        (scanEntries []
          [⟨1, .inlinedSubroutine, none, none, none, some 100, some 5, none⟩]).abstractOriginStats
        "" ∧
    alookup [("", (⟨1, 5⟩ : stats))] "" = some (List.foldl statMerge ⟨0, 0⟩
      (valuesFor
        (resolvedName (scanEntries []
            [⟨1, .inlinedSubroutine, none, none, none, some 100, some 5, none⟩]).names
          (scanEntries []
            [⟨1, .inlinedSubroutine, none, none, none, some 100, some 5, none⟩]).specs 1)
        (scanEntries []
          [⟨1, .inlinedSubroutine, none, none, none, some 100, some 5, none⟩]).abstractOriginStats
        "")) :=
  unresolved_origin_merged 1 []
    [⟨1, .inlinedSubroutine, none, none, none, some 100, some 5, none⟩]
    [("", ⟨1, 5⟩)] 100 ⟨1, 5⟩
    ("could not find name or spec for subprogram " ++ toString 100)
    (by rfl) (by decide) (by rfl)

theorem sumCounts_mapUpd_le (m : List (Nat × stats)) (k : Nat) (b : Nat) :
    sumCounts (mapUpd m k (statAcc b) ⟨0, 0⟩) ≤ sumCounts m + 1 := by
  induction m with
  | nil =>
    simp [mapUpd, sumCounts, statAcc, u64]
  | cons p rest ih =>
    obtain ⟨k', v⟩ := p
    by_cases h : k' = k
    · subst h
      rw [mapUpd_cons, if_pos rfl]
      simp only [sumCounts, List.map_cons, List.sum_cons, statAcc]
      have := Nat.mod_le (v.Count + 1) 18446744073709551616
      simp only [u64]
      omega
    · simp only [mapUpd_cons, if_neg h, sumCounts, List.map_cons,
        List.sum_cons] at *
      omega

theorem scanStep_sumCounts (rangeSizes : RMap) (σ : ScanState) (e : Entry) :
    sumCounts (scanStep rangeSizes σ e).abstractOriginStats ≤
      sumCounts σ.abstractOriginStats + 1 := by
  rw [scanStep_origin]
  cases hact : siteAct rangeSizes e with
  | none => dsimp only; omega
  | some p =>
    obtain ⟨o, b⟩ := p
    exact sumCounts_mapUpd_le _ o b

theorem scanFold_sumCounts (rangeSizes : RMap) :
    ∀ (l : List Entry) (σ : ScanState),
      sumCounts (List.foldl (scanStep rangeSizes) σ l).abstractOriginStats ≤
        sumCounts σ.abstractOriginStats + l.length := by
  intro l
  induction l with
  | nil => intro σ; simp
  | cons e rest ih =>
    intro σ
    simp only [List.foldl_cons, List.length_cons]
    have h1 := ih (scanStep rangeSizes σ e)
    have h2 := scanStep_sumCounts rangeSizes σ e
    omega

theorem count_mem_le_sumCounts (m : List (Nat × stats)) (o : Nat) (v : stats)
    (h : (o, v) ∈ m) : v.Count ≤ sumCounts m := by
  induction m with
  | nil => simp at h
  | cons p rest ih =>
    rcases List.mem_cons.mp h with h1 | h1
    · rw [← h1]
      simp [sumCounts]
    · have := ih h1
      simp only [sumCounts, List.map_cons, List.sum_cons] at *
      omega

theorem mem_mapUpd_cases [DecidableEq κ] (m : List (κ × α)) (k : κ)
    (f : α → α) (x : α) (p : κ × α) (hp : p ∈ mapUpd m k f x) :
    p ∈ m ∨ p = (k, f x) ∨ ∃ v, (k, v) ∈ m ∧ p = (k, f v) := by
  induction m with
  | nil =>
    simp [mapUpd] at hp
    exact Or.inr (Or.inl hp)
  | cons q rest ih =>
    obtain ⟨k', v⟩ := q
    by_cases h : k' = k
    · subst h
      rw [mapUpd_cons, if_pos rfl] at hp
      rcases List.mem_cons.mp hp with h1 | h1
      · exact Or.inr (Or.inr ⟨v, List.mem_cons_self _ _, h1⟩)
      · exact Or.inl (List.mem_cons_of_mem _ h1)
    · rw [mapUpd_cons, if_neg h] at hp
      rcases List.mem_cons.mp hp with h1 | h1
      · exact Or.inl (h1 ▸ List.mem_cons_self _ _)
      · rcases ih h1 with h2 | h2 | ⟨w, hw, he⟩
        · exact Or.inl (List.mem_cons_of_mem _ h2)
        · exact Or.inr (Or.inl h2)
        · exact Or.inr (Or.inr ⟨w, List.mem_cons_of_mem _ hw, he⟩)

theorem scanFold_counts_pos (rangeSizes : RMap) :
    ∀ (l : List Entry) (σ : ScanState),
      (∀ p ∈ σ.abstractOriginStats, 1 ≤ p.2.Count) →
      sumCounts σ.abstractOriginStats + l.length ≤ U64 - 1 →
      ∀ p ∈ (List.foldl (scanStep rangeSizes) σ l).abstractOriginStats,
        1 ≤ p.2.Count := by
  intro l
  induction l with
  | nil => intro σ hpos _ p hp; exact hpos p hp
  | cons e rest ih =>
    intro σ hpos hbud
    simp only [List.foldl_cons]
    refine ih (scanStep rangeSizes σ e) ?_ ?_
    · intro p hp
      rw [scanStep_origin] at hp
      cases hact : siteAct rangeSizes e with
      | none =>
        rw [hact] at hp
        exact hpos p hp
      | some q =>
        obtain ⟨o, b⟩ := q
        rw [hact] at hp
        rcases mem_mapUpd_cases _ o (statAcc b) ⟨0, 0⟩ p hp with
          h1 | h1 | ⟨v, hv, he⟩
        · exact hpos p h1
        · rw [h1]
          simp [statAcc, u64]
        · have hvle : v.Count ≤ sumCounts σ.abstractOriginStats :=
            count_mem_le_sumCounts _ o v hv
          rw [he]
          simp only [statAcc, u64, U64] at *
          simp only [List.length_cons] at hbud
          have : v.Count + 1 < 18446744073709551616 := by omega
          rw [Nat.mod_eq_of_lt this]
          omega
    · have := scanStep_sumCounts rangeSizes σ e
      simp only [List.length_cons] at hbud
      omega

theorem valuesFor_cons (r : Nat → Option String) (o : Nat) (s : stats)
    (om : List (Nat × stats)) (n : String) :
    valuesFor r ((o, s) :: om) n =
      if r o = some n then s :: valuesFor r om n else valuesFor r om n := by
  simp only [valuesFor, List.filterMap_cons]
  split_ifs with h <;> simp [h]

theorem valuesFor_mem_exists (r : Nat → Option String)
    (om : List (Nat × stats)) (n : String) (t : stats)
    (ht : t ∈ valuesFor r om n) : ∃ o, (o, t) ∈ om := by
  simp only [valuesFor, List.mem_filterMap] at ht
  obtain ⟨⟨o, s⟩, hm, hf⟩ := ht
  by_cases hc : r o = some n
  · simp only [hc, if_pos] at hf
    exact ⟨o, (Option.some.inj hf) ▸ hm⟩
  · simp [hc] at hf

theorem valuesFor_sum_le (r : Nat → Option String) (om : List (Nat × stats))
    (n : String) :
    ((valuesFor r om n).map stats.Count).sum ≤ sumCounts om := by
  induction om with
  | nil => simp [valuesFor, sumCounts]
  | cons p rest ih =>
    obtain ⟨o, s⟩ := p
    rw [valuesFor_cons]
    by_cases hc : r o = some n
    · simp only [if_pos hc, List.map_cons, List.sum_cons, sumCounts] at *
      omega
    · simp only [if_neg hc, sumCounts, List.map_cons, List.sum_cons] at *
      omega

theorem foldl_statMerge_count (vs : List stats) :
    ∀ a : stats, a.Count < U64 →
      (List.foldl statMerge a vs).Count =
        u64 (a.Count + (vs.map stats.Count).sum) := by
  induction vs with
  | nil =>
    intro a ha
    simp only [List.foldl_nil, List.map_nil, List.sum_nil, Nat.add_zero, u64]
    simp only [U64] at ha
    exact (Nat.mod_eq_of_lt ha).symm
  | cons v rest ih =>
    intro a ha
    simp only [List.foldl_cons, List.map_cons, List.sum_cons]
    rw [ih (statMerge a v) (u64_lt _)]
    simp only [statMerge]
    rw [u64_add_left]
    congr 1
    omega

/-- C10: every name present in the final table produced by the aggregation
core carries an occurrence count of at least 1 — an entry is created only
when at least one inline call site with a valid origin and extent was
accumulated into it (stated for entry streams short enough that the
`uint64` counters cannot wrap, which covers every actual DWARF stream). -/
theorem analyze_counts_positive :
    ∀ (fuel : Nat) (rangeSizes : RMap) (entries : List Entry)
      (ns : List (String × stats)),
      entries.length < U64 →
      analyzeEntries fuel rangeSizes entries = some ns →
      ∀ p ∈ ns, 1 ≤ p.2.Count := by
  intro fuel rangeSizes entries ns hlen hns p hp
  have hnsmerge : mergePass
      (resolvedName (scanEntries rangeSizes entries).names
        (scanEntries rangeSizes entries).specs fuel)
      (scanEntries rangeSizes entries).abstractOriginStats [] = some ns := by
    simpa [analyzeEntries] using hns
  have hndns : nodupKeys ns :=
    mergePass_nodup _ _ _ ns nodupKeys_nil_pairs hnsmerge
  obtain ⟨n, s⟩ := p
  have halk : alookup ns n = some s := mem_alookup_of_nodup ns n s hndns hp
  have hlk := mergePass_lookup _ _ _ ns hnsmerge n
  rw [halk] at hlk
  simp only [alookup] at hlk
  cases hvf : valuesFor
      (resolvedName (scanEntries rangeSizes entries).names
        (scanEntries rangeSizes entries).specs fuel)
      (scanEntries rangeSizes entries).abstractOriginStats n with
  | nil =>
    rw [hvf] at hlk
    simp at hlk
  | cons t rest =>
    rw [hvf] at hlk
    simp only [reduceCtorEq, if_false] at hlk
    have hs : s = List.foldl statMerge ⟨0, 0⟩ (t :: rest) :=
      Option.some.inj hlk
    have hcounts : ∀ q ∈ (scanEntries rangeSizes entries).abstractOriginStats,
        1 ≤ q.2.Count := by
      have := scanFold_counts_pos rangeSizes entries initScanState
        (by intro q hq; simp [initScanState] at hq)
        (by
          simp only [initScanState, sumCounts, List.map_nil, List.sum_nil,
            U64] at *
          omega)
      simpa [scanEntries] using this
    have hsum_om : sumCounts
        (scanEntries rangeSizes entries).abstractOriginStats ≤
        entries.length := by
      have := scanFold_sumCounts rangeSizes entries initScanState
      simpa [scanEntries, initScanState, sumCounts] using this
    have htmem : t ∈ valuesFor
        (resolvedName (scanEntries rangeSizes entries).names
          (scanEntries rangeSizes entries).specs fuel)
        (scanEntries rangeSizes entries).abstractOriginStats n := by
      rw [hvf]
      exact List.mem_cons_self _ _
    obtain ⟨o, ho⟩ := valuesFor_mem_exists _ _ n t htmem
    have ht1 : 1 ≤ t.Count := hcounts (o, t) ho
    have hvsum : (((t :: rest)).map stats.Count).sum ≤
        sumCounts (scanEntries rangeSizes entries).abstractOriginStats := by
      rw [← hvf]
      exact valuesFor_sum_le _ _ n
    have hcount : s.Count = u64 ((⟨0, 0⟩ : stats).Count +
        ((t :: rest).map stats.Count).sum) := by
      rw [hs]
      exact foldl_statMerge_count (t :: rest) ⟨0, 0⟩ (by simp [U64])
    simp only [List.map_cons, List.sum_cons] at *
    simp only [u64, U64] at *
    have : (0 + (t.Count + (rest.map stats.Count).sum)) <
        18446744073709551616 := by omega
    rw [Nat.mod_eq_of_lt this] at hcount
    omega

/-- Witness for C10: the single-entry analysis result has count 1. -/
theorem analyze_counts_positive_witness :
    1 ≤ (("", (⟨1, 5⟩ : stats)) : String × stats).2.Count :=
  analyze_counts_positive 1 []
    [⟨1, .inlinedSubroutine, none, none, none, some 100, some 5, none⟩]
    [("", ⟨1, 5⟩)] (by simp [U64]) (by rfl) ("", ⟨1, 5⟩)
    (List.mem_cons_self _ _)
